import Mathlib

/-!
Verification development for the order reconciler of
src/samples/jquery-field-itemorder/src/extensions/spfxItemOrder/SpfxItemOrderFieldCustomizer.ts.

The embedded pieces are the static diff routines hasChanged (lines 205 to 214) and
changedRows (lines 217 to 233), the pure content of the saveChanges update loop
(lines 147 to 157), and the state effects of onOrderChanged (lines 112 to 133)
together with the batch completion handlers of saveChanges (lines 160 to 178).
Numeric array entries are modelled as Int; JS indexing of an array at a possibly
out of range index is modelled with Option valued lookup, so that a dereference of
undefined becomes a none result that aborts the surrounding computation.
-/

/-- Row record captured at render time (interface IOrderedRow, used at lines 72 to 75):
the item Id and the value of the order field. -/
structure IOrderedRow where
  Id : Int
  Order : Int
deriving DecidableEq

/-- Diff entry (interface IChangedRow, built at lines 224 to 227): the original
list index of a row together with the position it currently occupies. -/
structure IChangedRow where
  listIndex : Int
  position : Nat
deriving DecidableEq

/-- One update handed to the persistence batcher: the target item identifier and
the value written to the order field. -/
structure PersistenceUpdate where
  itemId : Int
  orderValue : Int
deriving DecidableEq

/-- Embedding of hasChanged (lines 205 to 214): scan the indices of newOrder and
report whether any position holds a value different from the one in prevOrder.
An index beyond the end of prevOrder reads undefined in JS, modelled as none,
which compares unequal to any number. -/
def hasChanged (prevOrder newOrder : List Int) : Bool :=
  (List.range newOrder.length).any fun i =>
    decide (newOrder[i]? ≠ prevOrder[i]?)

/-- Embedding of changedRows (lines 217 to 233): for each index i of newOrder whose
value differs from prevOrder at i, emit the entry with listIndex newOrder[i] and
position i, in ascending index order. -/
def changedRows (prevOrder newOrder : List Int) : List IChangedRow :=
  (List.range newOrder.length).filterMap fun i =>
    if newOrder[i]? ≠ prevOrder[i]? then
      some { listIndex := (newOrder[i]?).getD 0, position := i }
    else none

/-- JS array indexing rowMap[i] for a possibly negative numeric index: none when
the index is negative or out of range, mirroring an undefined result. -/
def rowAtListIndex (rowMap : List IOrderedRow) (i : Int) : Option IOrderedRow :=
  if 0 ≤ i then rowMap[i.toNat]? else none

/-- Embedding of the forEach body of saveChanges (lines 147 to 157): each changed row
contributes one update whose value is the Order of _rowMap[row.position] (line 154)
and whose target is the item with Id of _rowMap[row.listIndex] (line 155). The Order
read happens first in the source, and a failed lookup aborts the loop, so the Order
lookup is bound first here and any none aborts the whole batch. -/
def batchOf (rowMap : List IOrderedRow) : List IChangedRow → Option (List PersistenceUpdate)
  | [] => some []
  | row :: rest =>
    match rowMap[row.position]?, rowAtListIndex rowMap row.listIndex with
    | some source, some target =>
        (batchOf rowMap rest).map
          (fun updates => { itemId := target.Id, orderValue := source.Order } :: updates)
    | _, _ => none

/-- Pure content of saveChanges (lines 136 to 157): diff the stored row order against
the observed one and build the update batch from the row map. -/
def saveChangesUpdates (rowMap : List IOrderedRow) (prevOrder newOrder : List Int) :
    Option (List PersistenceUpdate) :=
  batchOf rowMap (changedRows prevOrder newOrder)

/-- Modelled from the spec: "constructs an update keyed by the identifier of the row
originally at newPosition, carrying the orderValue originally recorded for the row at
originalIndex", read literally: the key is the Id of rowMap at the newPosition field
of the entry, and the carried value is the Order of rowMap at the originalIndex
(listIndex) field of the entry. -/
def applyChangesClaim (rowMap : List IOrderedRow) : List IChangedRow → Option (List PersistenceUpdate)
  | [] => some []
  | e :: rest =>
    match rowMap[e.position]?, rowAtListIndex rowMap e.listIndex with
    | some keyRow, some valueRow =>
        (applyChangesClaim rowMap rest).map
          (fun updates => { itemId := keyRow.Id, orderValue := valueRow.Order } :: updates)
    | _, _ => none

/-- Modelled from the amended claim: for each diff entry, the update is keyed by the
identifier of the row whose original index is the originalIndex (listIndex) field of
the entry, and it carries the orderValue recorded for the row whose original index
equals the newPosition field of the entry. -/
def applyChangesAmended (rowMap : List IOrderedRow) : List IChangedRow → Option (List PersistenceUpdate)
  | [] => some []
  | e :: rest =>
    match rowAtListIndex rowMap e.listIndex, rowMap[e.position]? with
    | some keyRow, some valueRow =>
        (applyChangesAmended rowMap rest).map
          (fun updates => { itemId := keyRow.Id, orderValue := valueRow.Order } :: updates)
    | _, _ => none

/-- Modelled from the spec: "scans position-by-position; for every position i where
observed[i] != baseline[i], emits ChangeEntry with originalIndex observed[i] and
newPosition i", with entries in ascending position order. Array indexing is total
here because the precondition of the spec keeps every index in range for both
sequences. -/
def diffSpec (baseline observed : List Int) : List IChangedRow :=
  (List.range observed.length).filterMap fun i =>
    if observed.getD i 0 ≠ baseline.getD i 0 then
      some { listIndex := observed.getD i 0, position := i }
    else none

/-- Ordering on diff entries by the position field, used to state the scan order
guarantee. -/
def posLt (e f : IChangedRow) : Prop := e.position < f.position

/-- Outcome of executing the persistence batch (line 160): the promise either
resolves or rejects with an error value. -/
inductive BatchOutcome where
  | success : BatchOutcome
  | failure : String → BatchOutcome

/-- Observable state of the customizer touched by onOrderChanged and saveChanges:
the stored baseline order _rowOrder, the frozen row map _rowMap, whether the
sortable drag surface is enabled, which rows show the loading icon, and the log. -/
structure CustomizerState where
  rowOrder : List Int
  rowMap : List IOrderedRow
  sortableEnabled : Bool
  loadingRows : List Int
  errorLog : List String
deriving DecidableEq

/-- State effects of saveChanges (lines 136 to 178) once the batch outcome is known:
every changed row first shows a loading icon (line 150); on success the loading
icons are cleared, _rowOrder becomes the new order and the sortable surface is
re-enabled (lines 161 to 172); on failure the handler only logs the single error
(lines 173 to 178). -/
def saveChangesStep (s : CustomizerState) (newOrder : List Int) (outcome : BatchOutcome) :
    CustomizerState :=
  let dirtyRows := changedRows s.rowOrder newOrder
  let s1 : CustomizerState :=
    { s with loadingRows := s.loadingRows ++ dirtyRows.map (fun r => r.listIndex) }
  match outcome with
  | BatchOutcome.success =>
      { s1 with loadingRows := [], rowOrder := newOrder, sortableEnabled := true }
  | BatchOutcome.failure err =>
      { s1 with errorLog := s1.errorLog ++ [err] }

/-- State effects of onOrderChanged (lines 112 to 133): disable the sortable surface,
then either run saveChanges when the order changed, or re-enable the surface. -/
def onOrderChangedStep (s : CustomizerState) (newOrder : List Int) (outcome : BatchOutcome) :
    CustomizerState :=
  let s1 : CustomizerState := { s with sortableEnabled := false }
  if hasChanged s.rowOrder newOrder then saveChangesStep s1 newOrder outcome
  else { s1 with sortableEnabled := true }

/-! Helper lemmas about the diff routines. -/

/-- Membership in the diff: an entry occurs exactly when the observed order holds its
listIndex at its position while the baseline does not. -/
theorem mem_changedRows {a b : List Int} {e : IChangedRow} :
    e ∈ changedRows a b ↔
      b[e.position]? = some e.listIndex ∧ a[e.position]? ≠ some e.listIndex := by
  unfold changedRows
  rw [List.mem_filterMap]
  constructor
  · rintro ⟨i, hi, hfi⟩
    rw [List.mem_range] at hi
    have hbi : b[i]? = some b[i] := List.getElem?_eq_some.mpr ⟨hi, rfl⟩
    by_cases hc : b[i]? ≠ a[i]?
    · rw [if_pos hc] at hfi
      have he : ({ listIndex := (b[i]?).getD 0, position := i } : IChangedRow) = e :=
        Option.some.inj hfi
      subst he
      rw [hbi] at hc ⊢
      refine ⟨by simp, ?_⟩
      simpa using fun h => hc h.symm
    · rw [if_neg hc] at hfi
      exact absurd hfi (by simp)
  · rintro ⟨hb, ha⟩
    obtain ⟨hlt, -⟩ := List.getElem?_eq_some.mp hb
    refine ⟨e.position, List.mem_range.mpr hlt, ?_⟩
    rw [if_pos (by rw [hb]; exact fun h => ha h.symm)]
    rw [hb]
    simp

/-- The diff is empty exactly when every position of the observed order agrees with
the baseline. -/
theorem changedRows_eq_nil_iff (a b : List Int) :
    changedRows a b = [] ↔ ∀ i, i < b.length → b[i]? = a[i]? := by
  unfold changedRows
  rw [List.filterMap_eq_nil_iff]
  constructor
  · intro h i hi
    have hi' := h i (List.mem_range.mpr hi)
    by_contra hne
    rw [if_pos hne] at hi'
    exact absurd hi' (by simp)
  · intro h i hi
    rw [if_neg (fun hne => hne (h i (List.mem_range.mp hi)))]

/-- hasChanged is false exactly when the diff is empty. -/
theorem hasChanged_eq_false_iff (a b : List Int) :
    hasChanged a b = false ↔ changedRows a b = [] := by
  rw [changedRows_eq_nil_iff]
  unfold hasChanged
  rw [List.any_eq_false]
  constructor
  · intro h i hi
    simpa using h i (List.mem_range.mpr hi)
  · intro h i hi
    simp [h i (List.mem_range.mp hi)]

/-- The apply step of the source equals the value swap mapping stated by the amended
claim, entry by entry over any change list. -/
theorem batchOf_eq_applyChangesAmended (rowMap : List IOrderedRow) :
    ∀ changes : List IChangedRow, batchOf rowMap changes = applyChangesAmended rowMap changes := by
  intro changes
  induction changes with
  | nil => rfl
  | cons e rest ih =>
    rcases hs : rowMap[e.position]? with _ | source <;>
      rcases ht : rowAtListIndex rowMap e.listIndex with _ | target <;>
      simp [batchOf, applyChangesAmended, hs, ht, ih]

/-- C4: hasChanged agrees with nonemptiness of changedRows on every pair of orderings,
so in particular on all equal-length permutation pairs. -/
theorem hasChanged_iff_changedRows_nonempty (a b : List Int) :
    hasChanged a b = true ↔ 0 < (changedRows a b).length := by
  rw [List.length_pos]
  constructor
  · intro h hnil
    have hf := (hasChanged_eq_false_iff a b).mpr hnil
    rw [h] at hf
    exact Bool.noConfusion hf
  · intro h
    cases hh : hasChanged a b
    · exact absurd ((hasChanged_eq_false_iff a b).mp hh) h
    · rfl

/-- C5: diffing an ordering against itself yields the empty sequence, so adopting the
observed ordering as the new baseline and re-diffing yields no further changes. -/
theorem changedRows_refl_empty (o : List Int) : changedRows o o = [] :=
  (changedRows_eq_nil_iff o o).mpr (fun _ _ => rfl)

/-- C8: for baseline [0,1,2,3] and observed [0,2,1,3], the diff is exactly the two
entries with originalIndex 2 at newPosition 1 and originalIndex 1 at newPosition 2,
in that order. -/
theorem changedRows_example_swap_middle :
    changedRows [0, 1, 2, 3] [0, 2, 1, 3] =
      [{ listIndex := 2, position := 1 }, { listIndex := 1, position := 2 }] := by decide

/-- C3: with row records Id 101 Order 5 at original index 0 and Id 202 Order 9 at
original index 1, baseline [0,1] and observed [1,0], the apply step produces exactly
the two updates setting item 202 to 5 and item 101 to 9. -/
theorem saveChangesUpdates_swap_example :
    saveChangesUpdates [{ Id := 101, Order := 5 }, { Id := 202, Order := 9 }] [0, 1] [1, 0] =
      some [{ itemId := 202, orderValue := 5 }, { itemId := 101, orderValue := 9 }] := by decide

/-- C2 counterexample: on the three row records and the rotation baseline [0,1,2],
observed [2,0,1], the source builds the batch keyed by the identifier of the row at
originalIndex carrying the orderValue of the row at newPosition, which differs from
the literal reading of the claim (key at newPosition, value at originalIndex). -/
theorem applyChanges_claim_counterexample :
    saveChangesUpdates
        [{ Id := 101, Order := 5 }, { Id := 202, Order := 9 }, { Id := 303, Order := 7 }]
        [0, 1, 2] [2, 0, 1] =
      some [{ itemId := 303, orderValue := 5 }, { itemId := 101, orderValue := 9 },
        { itemId := 202, orderValue := 7 }] ∧
    applyChangesClaim
        [{ Id := 101, Order := 5 }, { Id := 202, Order := 9 }, { Id := 303, Order := 7 }]
        (changedRows [0, 1, 2] [2, 0, 1]) =
      some [{ itemId := 101, orderValue := 7 }, { itemId := 202, orderValue := 5 },
        { itemId := 303, orderValue := 9 }] ∧
    saveChangesUpdates
        [{ Id := 101, Order := 5 }, { Id := 202, Order := 9 }, { Id := 303, Order := 7 }]
        [0, 1, 2] [2, 0, 1] ≠
      applyChangesClaim
        [{ Id := 101, Order := 5 }, { Id := 202, Order := 9 }, { Id := 303, Order := 7 }]
        (changedRows [0, 1, 2] [2, 0, 1]) :=
  ⟨by decide, by decide, by decide⟩

/-- C2 amended: for each ChangeEntry the apply step constructs an update keyed by the
identifier of the row whose original index is the originalIndex field of the entry
(the row that moved into newPosition), carrying the orderValue originally recorded
for the row whose original index equals newPosition. -/
theorem saveChangesUpdates_value_swap (rowMap : List IOrderedRow) (prevOrder newOrder : List Int) :
    saveChangesUpdates rowMap prevOrder newOrder =
      applyChangesAmended rowMap (changedRows prevOrder newOrder) :=
  batchOf_eq_applyChangesAmended rowMap (changedRows prevOrder newOrder)

/-- C6 counterexample: on the mismatched-length pair of baseline [] and observed [0],
a precondition violation, the reconciler raises nothing and returns ordinary values:
hasChanged answers true and changedRows returns a normal one-entry diff. -/
theorem reconciler_no_assertion_counterexample :
    hasChanged ([] : List Int) [0] = true ∧
      changedRows ([] : List Int) [0] = [{ listIndex := 0, position := 0 }] :=
  ⟨by decide, by decide⟩

/-- C6 amended: the reconciler contains no defensive assertion and never raises; on
every input pair, including mismatched-length or non-permutation orderings, it
returns a normal diff in which each entry records a genuine position mismatch at a
position below the length of the observed ordering. -/
theorem changedRows_total_on_violations (a b : List Int) (e : IChangedRow)
    (he : e ∈ changedRows a b) :
    e.position < b.length ∧ b[e.position]? = some e.listIndex ∧
      a[e.position]? ≠ some e.listIndex := by
  obtain ⟨hb, ha⟩ := mem_changedRows.mp he
  obtain ⟨hlt, -⟩ := List.getElem?_eq_some.mp hb
  exact ⟨hlt, hb, ha⟩

/-- Witness for the C6 amended theorem at the violating input baseline [] and
observed [0]. -/
theorem changedRows_total_on_violations_witness :
    ({ listIndex := 0, position := 0 } : IChangedRow).position < ([0] : List Int).length ∧
      ([0] : List Int)[({ listIndex := 0, position := 0 } : IChangedRow).position]? =
        some ({ listIndex := 0, position := 0 } : IChangedRow).listIndex ∧
      (([] : List Int))[({ listIndex := 0, position := 0 } : IChangedRow).position]? ≠
        some ({ listIndex := 0, position := 0 } : IChangedRow).listIndex :=
  changedRows_total_on_violations [] [0] { listIndex := 0, position := 0 } (by decide)

/-- C7: when the order changed and the persistence batch fails, the only state effect
of the handler is appending the single error to the log: the stored baseline
_rowOrder keeps its old value and the drag surface stays disabled; only on success
is _rowOrder replaced by the new ordering and the surface re-enabled. -/
theorem saveChanges_failure_behavior (s : CustomizerState) (newOrder : List Int) (err : String)
    (h : hasChanged s.rowOrder newOrder = true) :
    (onOrderChangedStep s newOrder (BatchOutcome.failure err)).rowOrder = s.rowOrder ∧
    (onOrderChangedStep s newOrder (BatchOutcome.failure err)).sortableEnabled = false ∧
    (onOrderChangedStep s newOrder (BatchOutcome.failure err)).errorLog = s.errorLog ++ [err] ∧
    (onOrderChangedStep s newOrder BatchOutcome.success).rowOrder = newOrder ∧
    (onOrderChangedStep s newOrder BatchOutcome.success).sortableEnabled = true := by
  unfold onOrderChangedStep saveChangesStep
  simp [h]

/-- Witness for C7 at a concrete state whose baseline [0,1] differs from the observed
ordering [1,0]. -/
theorem saveChanges_failure_behavior_witness :
    (onOrderChangedStep
        { rowOrder := [0, 1], rowMap := [], sortableEnabled := true, loadingRows := [],
          errorLog := [] } [1, 0] (BatchOutcome.failure "boom")).rowOrder = [0, 1] ∧
    (onOrderChangedStep
        { rowOrder := [0, 1], rowMap := [], sortableEnabled := true, loadingRows := [],
          errorLog := [] } [1, 0] (BatchOutcome.failure "boom")).sortableEnabled = false ∧
    (onOrderChangedStep
        { rowOrder := [0, 1], rowMap := [], sortableEnabled := true, loadingRows := [],
          errorLog := [] } [1, 0] (BatchOutcome.failure "boom")).errorLog = [] ++ ["boom"] ∧
    (onOrderChangedStep
        { rowOrder := [0, 1], rowMap := [], sortableEnabled := true, loadingRows := [],
          errorLog := [] } [1, 0] BatchOutcome.success).rowOrder = [1, 0] ∧
    (onOrderChangedStep
        { rowOrder := [0, 1], rowMap := [], sortableEnabled := true, loadingRows := [],
          errorLog := [] } [1, 0] BatchOutcome.success).sortableEnabled = true :=
  saveChanges_failure_behavior
    { rowOrder := [0, 1], rowMap := [], sortableEnabled := true, loadingRows := [],
      errorLog := [] } [1, 0] "boom" (by decide)

/-- C9: the reconciler examines only indices below the length of the observed order:
entries always sit at such positions; every index at or beyond the baseline length
but below the observed length counts as changed and contributes its entry; and when
the observed order is a prefix of the baseline that agrees element-wise, hasChanged
answers false and the diff is empty. -/
theorem changedRows_window (a b : List Int) :
    (∀ e, e ∈ changedRows a b → e.position < b.length) ∧
    (∀ i, a.length ≤ i → i < b.length →
      ∀ v : Int, b[i]? = some v → { listIndex := v, position := i } ∈ changedRows a b) ∧
    (∀ t : List Int, a = b ++ t → hasChanged a b = false ∧ changedRows a b = []) := by
  refine ⟨?_, ?_, ?_⟩
  · intro e he
    obtain ⟨hb, -⟩ := mem_changedRows.mp he
    obtain ⟨hlt, -⟩ := List.getElem?_eq_some.mp hb
    exact hlt
  · intro i hai hbi v hv
    refine mem_changedRows.mpr ⟨hv, ?_⟩
    rw [List.getElem?_eq_none hai]
    simp
  · intro t ht
    have key : ∀ i, i < b.length → b[i]? = a[i]? := by
      intro i hi
      rw [ht, List.getElem?_append, if_pos hi]
    have hnil : changedRows a b = [] := (changedRows_eq_nil_iff a b).mpr key
    exact ⟨(hasChanged_eq_false_iff a b).mpr hnil, hnil⟩

/-- Witness for C9: with baseline [7] and observed [7,3], position 1 lies beyond the
baseline and is reported changed; with baseline [7,3] and observed [7], the agreeing
proper prefix yields no change. -/
theorem changedRows_window_witness :
    ({ listIndex := 3, position := 1 } : IChangedRow).position < ([7, 3] : List Int).length ∧
    ({ listIndex := 3, position := 1 } : IChangedRow) ∈ changedRows [7] [7, 3] ∧
    (hasChanged [7, 3] [7] = false ∧ changedRows [7, 3] [7] = []) :=
  ⟨(changedRows_window [7] [7, 3]).1 { listIndex := 3, position := 1 } (by decide),
   (changedRows_window [7] [7, 3]).2.1 1 (by decide) (by decide) 3 (by decide),
   (changedRows_window [7, 3] [7]).2.2 [3] rfl⟩

/-- Mapping each diff entry to its position recovers exactly the differing indices of
the scan, in scan order. Stated over an arbitrary index list to allow induction. -/
theorem filterMap_entry_position (p : Nat → Prop) [DecidablePred p] (l : List Nat) :
    (l.filterMap fun i => if p i then some i else none) =
      l.filter fun i => decide (p i) := by
  induction l with
  | nil => rfl
  | cons x t ih =>
    by_cases hc : p x <;>
      simp [List.filterMap_cons, List.filter_cons, hc, ih]

/-- Positions of the diff entries are the differing scan indices in ascending order. -/
theorem changedRows_map_position (a b : List Int) :
    (changedRows a b).map (fun e => e.position) =
      (List.range b.length).filter fun i => decide (b[i]? ≠ a[i]?) := by
  unfold changedRows
  rw [List.map_filterMap]
  have hstep := filterMap_entry_position (fun i => b[i]? ≠ a[i]?) (List.range b.length)
  rw [← hstep]
  refine List.filterMap_congr ?_
  intro i hi
  by_cases hc : b[i]? ≠ a[i]? <;> simp [hc]

/-- Diff entries appear with strictly increasing position fields. -/
theorem changedRows_pairwise_posLt (a b : List Int) : (changedRows a b).Pairwise posLt := by
  have hs : ((changedRows a b).map fun e => e.position).Pairwise (fun m n => m < n) := by
    rw [changedRows_map_position]
    exact List.Pairwise.sublist (List.filter_sublist _) (List.pairwise_lt_range _)
  rw [List.pairwise_map] at hs
  exact hs

/-- C1: on equal-length orderings the diff routine emits exactly one entry with
originalIndex observed[i] and newPosition i for each differing position i, nothing
for agreeing positions, and the entries come in ascending scan order. -/
theorem changedRows_matches_diffSpec (a b : List Int) (h : a.length = b.length) :
    changedRows a b = diffSpec a b ∧ (changedRows a b).Pairwise posLt := by
  refine ⟨?_, changedRows_pairwise_posLt a b⟩
  unfold changedRows diffSpec
  refine List.filterMap_congr ?_
  intro i hi
  rw [List.mem_range] at hi
  have hb : b[i]? = some b[i] := List.getElem?_eq_some.mpr ⟨hi, rfl⟩
  have ha : a[i]? = some a[i] := List.getElem?_eq_some.mpr ⟨h ▸ hi, rfl⟩
  rw [List.getD_eq_getElem?_getD, List.getD_eq_getElem?_getD, hb, ha]
  simp

/-- Witness for C1 at the equal-length pair baseline [0,1], observed [1,0]. -/
theorem changedRows_matches_diffSpec_witness :
    changedRows [0, 1] [1, 0] = diffSpec [0, 1] [1, 0] ∧
      (changedRows [0, 1] [1, 0]).Pairwise posLt :=
  changedRows_matches_diffSpec [0, 1] [1, 0] rfl

/-- Decomposition of the diff on a cons pair: the head contributes one entry when the
front values differ, and the tail diff is the diff of the tails with every position
shifted up by one. -/
theorem changedRows_cons (x y : Int) (a b : List Int) :
    changedRows (x :: a) (y :: b) =
      (if y ≠ x then [({ listIndex := y, position := 0 } : IChangedRow)] else [])
        ++ (changedRows a b).map
            (fun e => { listIndex := e.listIndex, position := e.position + 1 }) := by
  unfold changedRows
  rw [List.length_cons, List.range_succ_eq_map, List.filterMap_cons, List.filterMap_map,
    List.map_filterMap]
  have htail : ∀ i ∈ List.range b.length,
      ((fun i => if (y :: b)[i]? ≠ (x :: a)[i]? then
          some ({ listIndex := ((y :: b)[i]?).getD 0, position := i } : IChangedRow) else none)
        ∘ Nat.succ) i =
      (fun i =>
        Option.map (fun e : IChangedRow => { listIndex := e.listIndex, position := e.position + 1 })
          (if b[i]? ≠ a[i]? then
            some ({ listIndex := (b[i]?).getD 0, position := i } : IChangedRow) else none)) i := by
    intro i hi
    by_cases hc : b[i]? = a[i]? <;>
      simp [Function.comp, List.getElem?_cons_succ, hc]
  rw [List.filterMap_congr htail]
  by_cases hxy : y = x
  · simp [hxy]
  · simp only [List.getElem?_cons_zero, ne_eq, Option.some.injEq, hxy, not_false_eq_true,
      if_true, if_pos, Option.getD_some, List.singleton_append]

/-- Two equal tails cannot follow distinct heads in a permutation pair. -/
theorem not_perm_cons_of_ne {x y : Int} (t : List Int) (hxy : x ≠ y) :
    ¬ (x :: t).Perm (y :: t) := by
  intro hp
  have hcount := hp.count_eq x
  simp [List.count_cons, hxy, fun h : y = x => hxy h.symm] at hcount

/-- A permutation pair of distinct lists always differs in at least two scan
positions, so the diff never has exactly one entry. -/
theorem two_le_changedRows_of_perm :
    ∀ a b : List Int, a.Perm b → a ≠ b → 2 ≤ (changedRows a b).length := by
  intro a
  induction a with
  | nil =>
    intro b hp hne
    exact absurd (hp.symm.eq_nil).symm hne
  | cons x t ih =>
    intro b hp hne
    obtain ⟨y, u, rfl⟩ : ∃ y u, b = y :: u := by
      cases b with
      | nil => exact absurd hp.eq_nil (by simp)
      | cons y u => exact ⟨y, u, rfl⟩
    rw [changedRows_cons]
    by_cases hxy : x = y
    · subst hxy
      have hp' : t.Perm u := hp.cons_inv
      have hne' : t ≠ u := fun h => hne (by rw [h])
      have h2 := ih u hp' hne'
      rw [if_neg (fun h => h rfl)]
      simpa using h2
    · have hlen : t.length = u.length := by simpa using hp.length_eq
      have hnil : changedRows t u ≠ [] := by
        intro h0
        have htu : t = u := by
          apply List.ext_getElem?
          intro n
          by_cases hn : n < u.length
          · exact ((changedRows_eq_nil_iff t u).mp h0 n hn).symm
          · rw [List.getElem?_eq_none (by omega), List.getElem?_eq_none (by omega)]
        subst htu
        exact not_perm_cons_of_ne t hxy hp
      have h1 : 0 < (changedRows t u).length := List.length_pos.mpr hnil
      rw [if_pos (fun h => hxy h.symm)]
      simp only [List.singleton_append, List.length_cons, List.length_map]
      omega

/-- C10: for distinct equal-length permutations of the index set 0..N-1, the diff
holds at least two entries; its length is never exactly one. -/
theorem changedRows_never_single (N : Nat) (a b : List Int)
    (ha : a.Perm ((List.range N).map (fun n => (n : Int))))
    (hb : b.Perm ((List.range N).map (fun n => (n : Int))))
    (hne : a ≠ b) :
    2 ≤ (changedRows a b).length :=
  two_le_changedRows_of_perm a b (ha.trans hb.symm) hne

/-- Witness for C10 at N = 2 with the distinct permutations [0,1] and [1,0]. -/
theorem changedRows_never_single_witness :
    2 ≤ (changedRows [0, 1] [1, 0]).length :=
  changedRows_never_single 2 [0, 1] [1, 0] (by decide) (by decide) (by decide)
